import Mathlib

set_option maxHeartbeats 1000000

/-!
Shallow embedding of the repository's two Naive Bayes implementations: the
multinomial text (spam) classifier and the categorical (census) classifier.
Counts and smoothed probabilities are embedded over ℚ; the stored
log-probabilities live in ℝ via Real.log, mirroring the np.log calls of the
source.  Text cleaning / tokenisation and CSV loading are external
collaborators, so messages enter the embedding already tokenised.
-/

/-- Class labels of the text classifier; the source hardcodes the two labels
of the spam dataset. -/
inductive Label where
  | ham
  | spam
deriving DecidableEq

/-- Module-level state of the text notebook: the full (shuffled) dataset as
label/token-list pairs, and the train split index (the source uses
int(len * 0.8)).  training_data is the prefix of length split. -/
structure TextModel where
  allData : List (Label × List String)
  split : ℕ

/-- training_data = shuffled_data[:split_index]. -/
def trainData (m : TextModel) : List (Label × List String) :=
  m.allData.take m.split

/-- vocabulary: the set of distinct words over all training messages. -/
def vocabL (train : List (Label × List String)) : Finset String :=
  ((train.map Prod.snd).flatten).toFinset

def vocab (m : TextModel) : Finset String := vocabL (trainData m)

/-- N_vocab = len(vocabulary). -/
def vocabCard (m : TextModel) : ℕ := (vocab m).card

/-- Concatenation of the token lists of the messages labelled k
(spam_messages['Text'] resp. ham_messages['Text'], flattened). -/
def classTokensL (train : List (Label × List String)) (k : Label) : List String :=
  ((train.filter (fun p => decide (p.1 = k))).map Prod.snd).flatten

/-- word_frequency[k][w] : occurrences of w across the class-k messages. -/
def wordFreqL (train : List (Label × List String)) (k : Label) (w : String) : ℕ :=
  (classTokensL train k).count w

/-- words_in_spam / words_in_ham : total token count of the class-k messages. -/
def wordsInL (train : List (Label × List String)) (k : Label) : ℕ :=
  (classTokensL train k).length

def wordFreq (m : TextModel) (k : Label) (w : String) : ℕ :=
  wordFreqL (trainData m) k w

def wordsIn (m : TextModel) (k : Label) : ℕ :=
  wordsInL (trainData m) k

/-- Number of instances of class k in a list (a value_counts entry). -/
def countLabelL (l : List (Label × List String)) (k : Label) : ℕ :=
  l.countP (fun p => decide (p.1 = k))

/-- N_ham of the source: shuffled_data["Label"].value_counts()[0].  The
positional index 0 of the descending-sorted value counts is the larger of the
two class counts (ham is the majority class of the source dataset).  Note the
counts are taken over the FULL dataset (shuffled_data), not the train split. -/
def nHam (m : TextModel) : ℕ :=
  max (countLabelL m.allData .ham) (countLabelL m.allData .spam)

/-- N_spam of the source: value_counts()[1], the smaller of the two counts. -/
def nSpam (m : TextModel) : ℕ :=
  min (countLabelL m.allData .ham) (countLabelL m.allData .spam)

/-- n = len(shuffled_data). -/
def nAll (m : TextModel) : ℕ := m.allData.length

/-- P_ham = (N_ham + 1) / (n + number_of_classes), with number_of_classes = 2. -/
def pHam (m : TextModel) : ℚ :=
  ((nHam m : ℚ) + 1) / ((nAll m : ℚ) + 2)

/-- P_spam = (N_spam + 1) / (n + number_of_classes). -/
def pSpam (m : TextModel) : ℚ :=
  ((nSpam m : ℚ) + 1) / ((nAll m : ℚ) + 2)

/-- log_priors = {'ham': np.log(P_ham), 'spam': np.log(P_spam)}. -/
noncomputable def logPriorText (m : TextModel) (k : Label) : ℝ :=
  match k with
  | .ham => Real.log ((pHam m : ℝ))
  | .spam => Real.log ((pSpam m : ℝ))

/-- prob = (N_wi_label + alpha) / (N_words + alpha * N_vocab), with alpha = 1. -/
def wordProb (m : TextModel) (k : Label) (w : String) : ℚ :=
  ((wordFreq m k w : ℚ) + 1) / ((wordsIn m k : ℚ) + 1 * (vocabCard m : ℚ))

/-- word_log_prob[k][w] = np.log(prob); stored for every vocabulary word. -/
noncomputable def wordLogProb (m : TextModel) (k : Label) (w : String) : ℝ :=
  Real.log ((wordProb m k w : ℝ))

/-- The unseen-word branch of classify: prob = (1 + alpha) /
(N_words + alpha * len(vocabulary)) where N_words is selected by the leftover
module-level variable key (not by the class currently scored). -/
def oovProb (m : TextModel) (key : Label) : ℚ :=
  (1 + 1) / ((wordsIn m key : ℚ) + 1 * (vocabCard m : ℚ))

/-- Per-word contribution inside classify's inner loop: the log conditional
for vocabulary words, and the raw (un-logged) smoothed probability computed
from key for out-of-vocabulary words. -/
noncomputable def scoreWord (m : TextModel) (key : Label) (k : Label) (w : String) : ℝ :=
  if w ∈ vocab m then wordLogProb m k w else ((oovProb m key : ℚ) : ℝ)

/-- class_probabilities[k]: running log_prob starting from the class prior. -/
noncomputable def scoreText (m : TextModel) (key : Label) (k : Label)
    (words : List String) : ℝ :=
  words.foldl (fun acc w => acc + scoreWord m key k w) (logPriorText m k)

-- classify: max(class_probabilities, key = class_probabilities.get) over the
-- insertion order [ham, spam] of log_priors; Python's max keeps the first
-- maximiser, so spam is returned only when it strictly beats ham.
open Classical in
noncomputable def classify (m : TextModel) (key : Label) (words : List String) : Label :=
  if scoreText m key .spam words > scoreText m key .ham words then .spam else .ham

/-- Concrete training set of the spec's §8 scenario; no held-out split. -/
def toyM : TextModel :=
  ⟨[(.spam, ["win", "money"]), (.ham, ["hello", "friend"]), (.spam, ["win", "prize"])], 3⟩

example : wordFreq toyM .spam "win" = 2 := by decide
example : wordsIn toyM .spam = 4 := by decide
example : wordsIn toyM .ham = 2 := by decide
example : vocabCard toyM = 5 := by decide
example : ("win" ∈ vocab toyM) := by decide
example : ¬ ("xyzzy" ∈ vocab toyM) := by decide
example : countLabelL toyM.allData .ham = 1 := by decide
example : countLabelL toyM.allData .spam = 2 := by decide

/-!
Categorical classifier (NaiveBayesClassifier of the census notebook).
A Row is a Python dict / DataFrame row: an association list from column name
to value; a cell read yields an Option.  Dicts preserve insertion order, so
class_frequencies is an association list grown by appending new keys.
-/

/-- A record: mapping from column/feature name to discrete value. -/
abbrev Row := List (String × String)

/-- Reading a cell (dict .get / column access): first matching key, if any. -/
def cell (r : Row) (c : String) : Option String :=
  (r.find? (fun p => decide (p.1 = c))).map Prod.snd

/-- A pandas DataFrame: its column list plus its rows. -/
structure DataTable where
  cols : List String
  rows : List Row

/-- Python exceptions raised by predict: a failed dict lookup (KeyError) or
max() over an empty dict (ValueError). -/
inductive Err where
  | keyError
  | valueError
deriving DecidableEq

/-- One step of the class_frequencies loop: increment an existing key or
append a new key with count 1 (dict insertion order). -/
def bump (acc : List (Option String × ℕ)) (l : Option String) :
    List (Option String × ℕ) :=
  if acc.any (fun p => decide (p.1 = l)) then
    acc.map (fun p => if p.1 = l then (p.1, p.2 + 1) else p)
  else acc ++ [(l, 1)]

/-- class_frequencies: one pass over the rows of the target column. -/
def classFreqs (rows : List Row) (target : String) : List (Option String × ℕ) :=
  rows.foldl (fun acc r => bump acc (cell r target)) []

/-- Reading the count stored for a key of the class_frequencies dict. -/
def getCount (acc : List (Option String × ℕ)) (l : Option String) : ℕ :=
  ((acc.filter (fun p => decide (p.1 = l))).map Prod.snd).sum

/-- theta = (freq + alpha) / (training_instances + alpha * len(class_frequencies)). -/
def priorTheta (df : DataTable) (target : String) (α : ℚ) (c : ℕ) : ℚ :=
  ((c : ℚ) + α) / ((df.rows.length : ℚ) + α * ((classFreqs df.rows target).length : ℚ))

/-- self.log_priors: the dict mapping each discovered class to np.log(theta). -/
noncomputable def logPriors (df : DataTable) (target : String) (α : ℚ) :
    List (Option String × ℝ) :=
  (classFreqs df.rows target).map (fun p => (p.1, Real.log ((priorTheta df target α p.2 : ℝ))))

/-- self.log_priors[class_label]: dict read (the default 0 is never reached,
predict only looks up discovered classes). -/
noncomputable def priorRead (df : DataTable) (target : String) (α : ℚ)
    (k : Option String) : ℝ :=
  (((logPriors df target α).find? (fun p => decide (p.1 = k))).map Prod.snd).getD 0

/-- self.log_priors.keys() in insertion order. -/
def classesOf (df : DataTable) (target : String) : List (Option String) :=
  (classFreqs df.rows target).map Prod.fst

/-- self.features: the columns other than the target. -/
def featuresOf (df : DataTable) (target : String) : List String :=
  df.cols.filter (fun c => decide (c ≠ target))

/-- data[f]: the column of values (as cell reads). -/
def colVals (df : DataTable) (f : String) : List (Option String) :=
  df.rows.map (fun r => cell r f)

/-- data[f].unique(): the distinct values of the column.  (List.dedup orders
by last occurrence while pandas keeps first occurrence; every use below —
cardinality, membership, summation — is order-independent.) -/
def uniqueVals (df : DataTable) (f : String) : List (Option String) :=
  (colVals df f).dedup

/-- N_k_vj = len(data[(data[target] == k) & (data[f] == v)]). -/
def countKV (df : DataTable) (target : String) (k : Option String) (f : String)
    (v : Option String) : ℕ :=
  df.rows.countP (fun r => decide (cell r target = k ∧ cell r f = v))

/-- total_count: the loop summing N_k_vj over the unique values of f. -/
def totalCount (df : DataTable) (target : String) (k : Option String) (f : String) : ℕ :=
  ((uniqueVals df f).map (fun v => countKV df target k f v)).sum

/-- theta_k_j_v = (N_k_vj + alpha) / (total_count + alpha * V_j). -/
def condTheta (df : DataTable) (target : String) (α : ℚ) (k : Option String)
    (f : String) (v : Option String) : ℚ :=
  ((countKV df target k f v : ℚ) + α) /
    ((totalCount df target k f : ℚ) + α * ((uniqueVals df f).length : ℚ))

/-- self.class_conditional_probs[k][f][v]: stored (as np.log(theta)) exactly
for the values v observed in column f; any other v is a missing dict key. -/
noncomputable def condLookup (df : DataTable) (target : String) (α : ℚ)
    (k : Option String) (f : String) (v : Option String) : Option ℝ :=
  if v ∈ uniqueVals df f then some (Real.log ((condTheta df target α k f v : ℝ)))
  else none

/-- The inner loop of predict for one class: starting from the prior, add the
stored conditional of each feature; a missing key raises KeyError. -/
noncomputable def scoreFold (df : DataTable) (target : String) (α : ℚ)
    (k : Option String) (inst : Row) : List String → ℝ → Except Err ℝ
  | [], acc => .ok acc
  | f :: fs, acc =>
    match condLookup df target α k f (cell inst f) with
    | some x => scoreFold df target α k inst fs (acc + x)
    | none => .error .keyError

/-- log_prob for one class inside predict. -/
noncomputable def scoreClass (df : DataTable) (target : String) (α : ℚ)
    (inst : Row) (k : Option String) : Except Err ℝ :=
  scoreFold df target α k inst (featuresOf df target) (priorRead df target α k)

/-- class_probabilities: scores accumulated class by class, the first raised
exception aborting the whole call. -/
noncomputable def scoresFold (df : DataTable) (target : String) (α : ℚ)
    (inst : Row) : List (Option String) → Except Err (List (Option String × ℝ))
  | [] => .ok []
  | k :: ks =>
    match scoreClass df target α inst k with
    | .ok v => (scoresFold df target α inst ks).map (fun rest => (k, v) :: rest)
    | .error e => .error e

noncomputable def classScores (df : DataTable) (target : String) (α : ℚ)
    (inst : Row) : Except Err (List (Option String × ℝ)) :=
  scoresFold df target α inst (classesOf df target)

-- Python's max(d, key=d.get): scan in insertion order, replace the current
-- best only on a strictly greater value, so the first maximiser wins.
open Classical in
noncomputable def argmaxGo (best : Option String × ℝ) :
    List (Option String × ℝ) → Option String × ℝ
  | [] => best
  | p :: ps => argmaxGo (if p.2 > best.2 then p else best) ps

noncomputable def argmaxFirst : List (Option String × ℝ) → Option (Option String)
  | [] => none
  | p :: ps => some (argmaxGo p ps).1

/-- predict: max over class_probabilities; an empty dict would raise
ValueError, a missing conditional key raises KeyError. -/
noncomputable def predictC (df : DataTable) (target : String) (α : ℚ)
    (inst : Row) : Except Err (Option String) :=
  match classScores df target α inst with
  | .ok ps =>
    match argmaxFirst ps with
    | some k => .ok k
    | none => .error .valueError
  | .error e => .error e

/-- Two-row, two-class table used to exercise the prediction paths. -/
def dfAB : DataTable :=
  ⟨["f", "t"], [[("f", "x"), ("t", "a")], [("f", "y"), ("t", "b")]]⟩

example : classesOf dfAB "t" = [some "a", some "b"] := by decide
example : featuresOf dfAB "t" = ["f"] := by decide
example : uniqueVals dfAB "f" = [some "x", some "y"] := by decide
example : countKV dfAB "t" (some "a") "f" (some "x") = 1 := by decide
example : totalCount dfAB "t" (some "a") "f" = 1 := by decide
example : getCount (classFreqs dfAB.rows "t") (some "a") = 1 := by decide

/-!
Helper lemmas for the text classifier.
-/

lemma foldl_add_eq (f : String → ℝ) :
    ∀ (l : List String) (init : ℝ),
      l.foldl (fun a x => a + f x) init = init + (l.map f).sum := by
  intro l
  induction l with
  | nil => intro init; simp
  | cons w ws ih =>
    intro init
    simp only [List.foldl_cons, List.map_cons, List.sum_cons, ih]
    ring

lemma sum_scoreWord_split (m : TextModel) (key k : Label) :
    ∀ ws : List String,
      ((ws.map (scoreWord m key k)).sum =
        ((ws.filter (fun w => decide (w ∈ vocab m))).map (wordLogProb m k)).sum
          + ((ws.filter (fun w => !decide (w ∈ vocab m))).length : ℝ)
              * ((oovProb m key : ℚ) : ℝ)) := by
  intro ws
  induction ws with
  | nil => simp
  | cons w ws ih =>
    by_cases h : w ∈ vocab m
    · simp only [List.map_cons, List.sum_cons, List.filter_cons, h, ih,
        scoreWord, if_pos h]
      simp [h]
      ring
    · simp only [List.map_cons, List.sum_cons, List.filter_cons, h, ih,
        scoreWord, if_neg h]
      simp [h]
      ring

lemma scoreText_decomp (m : TextModel) (key k : Label) (ws : List String) :
    scoreText m key k ws =
      logPriorText m k
        + ((ws.filter (fun w => decide (w ∈ vocab m))).map (wordLogProb m k)).sum
        + ((ws.filter (fun w => !decide (w ∈ vocab m))).length : ℝ)
            * ((oovProb m key : ℚ) : ℝ) := by
  rw [scoreText, foldl_add_eq, sum_scoreWord_split]
  ring

/-- C10: in classify, the value added for an out-of-vocabulary word is
computed from the leftover module variable key, not from the class label
being scored, so it is the same for every class; consequently two messages
with equal in-vocabulary token sequences are always classified identically —
out-of-vocabulary words never change the arg-max. -/
theorem C10_oov_key_invariance :
    (∀ (m : TextModel) (key k k' : Label) (w : String), w ∉ vocab m →
      scoreWord m key k w = scoreWord m key k' w)
    ∧ ∀ (m : TextModel) (key : Label) (ws1 ws2 : List String),
        ws1.filter (fun w => decide (w ∈ vocab m))
            = ws2.filter (fun w => decide (w ∈ vocab m)) →
        classify m key ws1 = classify m key ws2 := by
  constructor
  · intro m key k k' w h
    rw [scoreWord, if_neg h, scoreWord, if_neg h]
  · intro m key ws1 ws2 hfi
    have cond : ∀ ws : List String,
        (scoreText m key .spam ws > scoreText m key .ham ws) ↔
          (logPriorText m .spam
              + ((ws.filter (fun w => decide (w ∈ vocab m))).map (wordLogProb m .spam)).sum >
            logPriorText m .ham
              + ((ws.filter (fun w => decide (w ∈ vocab m))).map (wordLogProb m .ham)).sum) := by
      intro ws
      rw [scoreText_decomp m key .spam ws, scoreText_decomp m key .ham ws]
      exact add_lt_add_iff_right _
    rw [classify, classify]
    refine if_congr ?_ rfl rfl
    rw [cond ws1, cond ws2, hfi]

/-- C10 witness: concrete application — "zzzz" is out of vocabulary, its
contribution is class-independent, and appending it to a message does not
change the classification. -/
theorem C10_oov_key_invariance_witness :
    (("zzzz" ∉ vocab toyM)
      ∧ scoreWord toyM .spam .ham "zzzz" = scoreWord toyM .spam .spam "zzzz")
    ∧ (["win"].filter (fun w => decide (w ∈ vocab toyM))
          = ["win", "zzzz"].filter (fun w => decide (w ∈ vocab toyM))
        ∧ classify toyM .spam ["win"] = classify toyM .spam ["win", "zzzz"]) :=
  ⟨⟨by decide, C10_oov_key_invariance.1 toyM .spam .ham .spam "zzzz" (by decide)⟩,
   ⟨by decide, C10_oov_key_invariance.2 toyM .spam ["win"] ["win", "zzzz"] (by decide)⟩⟩

/-- C1: the spec requires the unseen-token fallback to add
log((0 + α) / (N_k + α·V)) with class k's own event total; the code instead
adds the raw (un-logged) quantity (1 + α) / (N_key + α·V) taken from the
leftover key variable, so on the §8 toy model the value added for an
out-of-vocabulary token differs from the specified one for every choice of
key and every scored class. -/
theorem C1_fallback_code_bug :
    ∀ key k : Label,
      scoreWord toyM key k "xyzzy"
          = ((((1 + 1 : ℚ) / ((wordsIn toyM key : ℚ) + 1 * (vocabCard toyM : ℚ))) : ℚ) : ℝ)
        ∧ scoreWord toyM key k "xyzzy"
          ≠ Real.log ((((0 + 1 : ℚ)
              / ((wordsIn toyM k : ℚ) + 1 * (vocabCard toyM : ℚ))) : ℚ) : ℝ) := by
  have h2 : wordsIn toyM .ham = 2 := by decide
  have h4 : wordsIn toyM .spam = 4 := by decide
  have h5 : vocabCard toyM = 5 := by decide
  have hnm : "xyzzy" ∉ vocab toyM := by decide
  intro key k
  have heq : scoreWord toyM key k "xyzzy" = ((oovProb toyM key : ℚ) : ℝ) := by
    rw [scoreWord, if_neg hnm]
  refine ⟨by rw [heq]; rfl, ?_⟩
  rw [heq, oovProb]
  cases key <;> cases k <;>
    simp only [h2, h4, h5] <;>
    refine ne_of_gt (lt_trans (Real.log_neg (by push_cast; norm_num) (by push_cast; norm_num)) (by push_cast; norm_num))

/-- Dataset exhibiting the prior-leakage slip: four labelled messages, train
split of two (ham and spam once each), two held-out ham messages. -/
def leakM : TextModel :=
  ⟨[(.ham, ["a"]), (.spam, ["b"]), (.ham, ["c"]), (.ham, ["d"])], 2⟩

example : countLabelL (trainData leakM) .ham = 1 := by decide
example : (trainData leakM).length = 2 := by decide
example : pHam leakM = 2/3 := by
  rw [pHam, show nHam leakM = 3 from by decide, show nAll leakM = 4 from by decide]
  norm_num

/-- C3: the claim requires the ham log-prior to be computed from the training
instances only, log((N_ham + α)/(n + α·K)) = log((1+1)/(2+1·2)) = log(1/2)
here (both classes occur in the train split, so K = 2); the code instead
counts over the full shuffled dataset, storing log((3+1)/(4+2)) = log(2/3),
so the two held-out ham rows leak into the prior. -/
theorem C3_prior_leakage :
    logPriorText leakM .ham = Real.log ((2 / 3 : ℝ))
      ∧ countLabelL (trainData leakM) .ham = 1
      ∧ (trainData leakM).length = 2
      ∧ logPriorText leakM .ham
          ≠ Real.log ((((countLabelL (trainData leakM) .ham : ℚ) + 1)
              / (((trainData leakM).length : ℚ) + 1 * 2) : ℚ) : ℝ) := by
  have hv : logPriorText leakM .ham = Real.log ((2 / 3 : ℝ)) := by
    rw [logPriorText, show pHam leakM = 2/3 from by
      rw [pHam, show nHam leakM = 3 from by decide, show nAll leakM = 4 from by decide]
      norm_num]
    norm_num
  refine ⟨hv, by decide, by decide, ?_⟩
  rw [hv, show countLabelL (trainData leakM) .ham = 1 from by decide,
    show (trainData leakM).length = 2 from by decide]
  have hrhs : ((((1 : ℕ) : ℚ) + 1) / (((2 : ℕ) : ℚ) + 1 * 2) : ℚ) = (1/2 : ℚ) := by
    norm_num
  rw [hrhs]
  have h1 : Real.log ((((1/2 : ℚ)) : ℝ)) < Real.log ((2 / 3 : ℝ)) := by
    apply Real.log_lt_log
    · norm_num
    · push_cast
      norm_num
  exact ne_of_gt h1

/-- C2: the stored log-conditionals follow the additive-smoothing formula
log((N_ke + α)/(N_k + α·V)) in both implementations (V the vocabulary size
for the multinomial, the number of distinct values of the feature for the
categorical), and on the §8 scenario log_cond(spam, win) = log((2+1)/(4+1·5))
while classify on ["win","prize"] returns spam for either residual value of
the key variable. -/
theorem C2_conditional_formula_and_scenario :
    (∀ (m : TextModel) (k : Label) (w : String), w ∈ vocab m →
      wordLogProb m k w =
        Real.log ((((wordFreqL (trainData m) k w : ℚ) + 1)
          / ((wordsInL (trainData m) k : ℚ) + 1 * ((vocabL (trainData m)).card : ℚ)) : ℚ) : ℝ))
    ∧ (∀ (df : DataTable) (target : String) (α : ℚ) (k : Option String) (f : String)
        (v : Option String), v ∈ uniqueVals df f →
        condLookup df target α k f v =
          some (Real.log ((((countKV df target k f v : ℚ) + α)
            / ((totalCount df target k f : ℚ) + α * ((uniqueVals df f).length : ℚ)) : ℚ) : ℝ)))
    ∧ wordLogProb toyM .spam "win" = Real.log ((((2 + 1 : ℚ) / (4 + 1 * 5)) : ℚ) : ℝ)
    ∧ (∀ key : Label, classify toyM key ["win", "prize"] = .spam) := by
  have hwv : wordProb toyM .spam "win" = ((2 + 1 : ℚ) / (4 + 1 * 5)) := by
    rw [wordProb, show wordFreq toyM .spam "win" = 2 from by decide,
      show wordsIn toyM .spam = 4 from by decide,
      show vocabCard toyM = 5 from by decide]
    norm_num
  refine ⟨fun m k w _ => rfl, ?_, ?_, ?_⟩
  · intro df target α k f v hv
    rw [condLookup, if_pos hv]
    rfl
  · rw [wordLogProb, hwv]
  · intro key
    have hwin : "win" ∈ vocab toyM := by decide
    have hprize : "prize" ∈ vocab toyM := by decide
    have e1 : wordProb toyM .spam "win" = (1/3 : ℚ) := by rw [hwv]; norm_num
    have e2 : wordProb toyM .spam "prize" = (2/9 : ℚ) := by
      rw [wordProb, show wordFreq toyM .spam "prize" = 1 from by decide,
        show wordsIn toyM .spam = 4 from by decide,
        show vocabCard toyM = 5 from by decide]
      norm_num
    have e3 : wordProb toyM .ham "win" = (1/7 : ℚ) := by
      rw [wordProb, show wordFreq toyM .ham "win" = 0 from by decide,
        show wordsIn toyM .ham = 2 from by decide,
        show vocabCard toyM = 5 from by decide]
      norm_num
    have e4 : wordProb toyM .ham "prize" = (1/7 : ℚ) := by
      rw [wordProb, show wordFreq toyM .ham "prize" = 0 from by decide,
        show wordsIn toyM .ham = 2 from by decide,
        show vocabCard toyM = 5 from by decide]
      norm_num
    have e5 : pSpam toyM = (2/5 : ℚ) := by
      rw [pSpam, show nSpam toyM = 1 from by decide, show nAll toyM = 3 from by decide]
      norm_num
    have e6 : pHam toyM = (3/5 : ℚ) := by
      rw [pHam, show nHam toyM = 2 from by decide, show nAll toyM = 3 from by decide]
      norm_num
    have sspam : scoreText toyM key .spam ["win", "prize"]
        = Real.log ((2/5 : ℝ)) + Real.log ((1/3 : ℝ)) + Real.log ((2/9 : ℝ)) := by
      simp only [scoreText, List.foldl_cons, List.foldl_nil]
      rw [scoreWord, if_pos hwin, scoreWord, if_pos hprize]
      simp only [logPriorText, wordLogProb, e1, e2, e5]
      norm_num
    have sham : scoreText toyM key .ham ["win", "prize"]
        = Real.log ((3/5 : ℝ)) + Real.log ((1/7 : ℝ)) + Real.log ((1/7 : ℝ)) := by
      simp only [scoreText, List.foldl_cons, List.foldl_nil]
      rw [scoreWord, if_pos hwin, scoreWord, if_pos hprize]
      simp only [logPriorText, wordLogProb, e3, e4, e6]
      norm_num
    have hcomp : scoreText toyM key .spam ["win", "prize"]
        > scoreText toyM key .ham ["win", "prize"] := by
      rw [sspam, sham,
        ← Real.log_mul (show (3/5 : ℝ) ≠ 0 by norm_num) (show (1/7 : ℝ) ≠ 0 by norm_num),
        ← Real.log_mul (show (3/5 * (1/7) : ℝ) ≠ 0 by norm_num) (show (1/7 : ℝ) ≠ 0 by norm_num),
        ← Real.log_mul (show (2/5 : ℝ) ≠ 0 by norm_num) (show (1/3 : ℝ) ≠ 0 by norm_num),
        ← Real.log_mul (show (2/5 * (1/3) : ℝ) ≠ 0 by norm_num) (show (2/9 : ℝ) ≠ 0 by norm_num)]
      exact Real.log_lt_log (by norm_num) (by norm_num)
    rw [classify, if_pos hcomp]

/-- C2 witness: the two hypothesised conjuncts applied at concrete inputs —
the trained log-conditional of ("spam","win") in the toy text model, and the
stored conditional of (class a, feature f, value x) in the two-row table. -/
theorem C2_conditional_formula_and_scenario_witness :
    wordLogProb toyM .spam "win" =
      Real.log ((((wordFreqL (trainData toyM) .spam "win" : ℚ) + 1)
        / ((wordsInL (trainData toyM) .spam : ℚ) + 1 * ((vocabL (trainData toyM)).card : ℚ)) : ℚ) : ℝ)
    ∧ condLookup dfAB "t" 1 (some "a") "f" (some "x") =
        some (Real.log ((((countKV dfAB "t" (some "a") "f" (some "x") : ℚ) + 1)
          / ((totalCount dfAB "t" (some "a") "f" : ℚ) + 1 * ((uniqueVals dfAB "f").length : ℚ)) : ℚ) : ℝ)) :=
  ⟨C2_conditional_formula_and_scenario.1 toyM .spam "win" (by decide),
   C2_conditional_formula_and_scenario.2.1 dfAB "t" 1 (some "a") "f" (some "x") (by decide)⟩

/-- C4 counterexample: predicting an instance whose value "z" for the known
feature "f" was never observed in training raises KeyError instead of
contributing a fallback smoothed log-probability. -/
theorem C4_counterexample : predictC dfAB "t" 1 [("f", "z")] = .error .keyError := rfl

lemma condLookup_none (df : DataTable) (target : String) (α : ℚ)
    (k : Option String) (f : String) (v : Option String)
    (h : v ∉ uniqueVals df f) : condLookup df target α k f v = none := by
  rw [condLookup, if_neg h]

lemma scoreFold_err (df : DataTable) (target : String) (α : ℚ)
    (k : Option String) (inst : Row) :
    ∀ (fs : List String) (acc : ℝ),
      (∃ f ∈ fs, cell inst f ∉ uniqueVals df f) →
      scoreFold df target α k inst fs acc = .error .keyError := by
  intro fs
  induction fs with
  | nil =>
    rintro acc ⟨f, hf, -⟩
    exact absurd hf (List.not_mem_nil f)
  | cons f0 fs ih =>
    rintro acc ⟨f, hf, hnm⟩
    cases hc : condLookup df target α k f0 (cell inst f0) with
    | none => simp [scoreFold, hc]
    | some x =>
      rcases List.mem_cons.mp hf with rfl | hf'
      · rw [condLookup_none df target α k f _ hnm] at hc
        exact Option.noConfusion hc
      · simp only [scoreFold, hc]
        exact ih (acc + x) ⟨f, hf', hnm⟩

lemma bump_ne_nil (acc : List (Option String × ℕ)) (l : Option String) :
    bump acc l ≠ [] := by
  rw [bump]
  split
  · intro hmap
    rename_i hany
    rw [List.map_eq_nil_iff.mp hmap] at hany
    simp at hany
  · simp

lemma foldl_bump_ne_nil (target : String) :
    ∀ (rs : List Row) (acc : List (Option String × ℕ)), acc ≠ [] →
      rs.foldl (fun acc r => bump acc (cell r target)) acc ≠ [] := by
  intro rs
  induction rs with
  | nil => intro acc h; exact h
  | cons r rs ih =>
    intro acc _
    rw [List.foldl_cons]
    exact ih _ (bump_ne_nil acc (cell r target))

lemma classFreqs_ne_nil (rows : List Row) (target : String) (h : rows ≠ []) :
    classFreqs rows target ≠ [] := by
  cases rows with
  | nil => exact absurd rfl h
  | cons r rs =>
    rw [classFreqs, List.foldl_cons]
    exact foldl_bump_ne_nil target rs _ (bump_ne_nil [] (cell r target))

lemma scoresFold_err (df : DataTable) (target : String) (α : ℚ) (inst : Row)
    (ks : List (Option String)) (hne : ks ≠ [])
    (herr : ∀ k, scoreClass df target α inst k = .error .keyError) :
    scoresFold df target α inst ks = .error .keyError := by
  cases ks with
  | nil => exact absurd rfl hne
  | cons k ks => simp [scoresFold, herr k]

/-- C4 amended: on a trained categorical model, predicting an instance whose
value for some trained feature was never observed in training raises
KeyError (the conditional-table lookup fails); the feature is neither
smoothed nor skipped and no normal result is returned. -/
theorem C4_unseen_value_raises :
    ∀ (df : DataTable) (target : String) (α : ℚ) (inst : Row),
      df.rows ≠ [] →
      (∃ f ∈ featuresOf df target, cell inst f ∉ uniqueVals df f) →
      predictC df target α inst = .error .keyError := by
  intro df target α inst hrows hex
  have herr : ∀ k, scoreClass df target α inst k = .error .keyError := by
    intro k
    rw [scoreClass]
    exact scoreFold_err df target α k inst (featuresOf df target) _ hex
  have hcls : classesOf df target ≠ [] := by
    rw [classesOf]
    intro hmap
    exact classFreqs_ne_nil df.rows target hrows (List.map_eq_nil_iff.mp hmap)
  have hsf : classScores df target α inst = .error .keyError := by
    rw [classScores]
    exact scoresFold_err df target α inst _ hcls herr
  rw [predictC, hsf]

/-- C4 witness: the amended fact applied at the two-row table and the unseen
value "z" of the known feature "f". -/
theorem C4_unseen_value_raises_witness :
    dfAB.rows ≠ []
      ∧ (∃ f ∈ featuresOf dfAB "t", cell [("f", "z")] f ∉ uniqueVals dfAB f)
      ∧ predictC dfAB "t" 1 [("f", "z")] = .error .keyError :=
  ⟨by decide, by decide,
    C4_unseen_value_raises dfAB "t" 1 [("f", "z")] (by decide) (by decide)⟩

/-- One-row table used to show that extra feature names are ignored. -/
def dfOne : DataTable := ⟨["f", "t"], [[("f", "x"), ("t", "a")]]⟩

/-- C5 counterexample: predicting an instance that carries the feature name
"g", absent from the trained schema, returns a normal result (there is no
SchemaMismatchError anywhere in the implementation). -/
theorem C5_counterexample :
    predictC dfOne "t" 1 [("f", "x"), ("g", "q")] = .ok (some "a") := rfl

lemma scoreFold_congr (df : DataTable) (target : String) (α : ℚ)
    (k : Option String) (i1 i2 : Row) :
    ∀ (fs : List String), (∀ f ∈ fs, cell i1 f = cell i2 f) →
      ∀ acc : ℝ, scoreFold df target α k i1 fs acc = scoreFold df target α k i2 fs acc := by
  intro fs
  induction fs with
  | nil => intro _ acc; rfl
  | cons f0 fs ih =>
    intro h acc
    have h0 : cell i1 f0 = cell i2 f0 := h f0 (List.mem_cons_self f0 fs)
    simp only [scoreFold, h0]
    cases hc : condLookup df target α k f0 (cell i2 f0) with
    | none => rfl
    | some x => exact ih (fun f hf => h f (List.mem_cons_of_mem f0 hf)) (acc + x)

lemma scoresFold_congr (df : DataTable) (target : String) (α : ℚ) (i1 i2 : Row)
    (h : ∀ f ∈ featuresOf df target, cell i1 f = cell i2 f) :
    ∀ ks : List (Option String),
      scoresFold df target α i1 ks = scoresFold df target α i2 ks := by
  intro ks
  induction ks with
  | nil => rfl
  | cons k ks ih =>
    have hk : scoreClass df target α i1 k = scoreClass df target α i2 k := by
      rw [scoreClass, scoreClass]
      exact scoreFold_congr df target α k i1 i2 (featuresOf df target) h _
    simp only [scoresFold, hk, ih]

/-- C5 amended: predict reads only the trained feature names; any instance
field with a feature name outside the trained schema is silently ignored —
two instances agreeing on every trained feature yield identical results, and
no error of any kind is raised for the extra field. -/
theorem C5_extra_feature_ignored :
    ∀ (df : DataTable) (target : String) (α : ℚ) (i1 i2 : Row),
      (∀ f ∈ featuresOf df target, cell i1 f = cell i2 f) →
      predictC df target α i1 = predictC df target α i2 := by
  intro df target α i1 i2 h
  rw [predictC, predictC, classScores, classScores,
    scoresFold_congr df target α i1 i2 h (classesOf df target)]

/-- C5 witness: adding the unknown field ("g","q") leaves the prediction of
the one-row model unchanged. -/
theorem C5_extra_feature_ignored_witness :
    (∀ f ∈ featuresOf dfOne "t", cell [("f", "x")] f = cell [("f", "x"), ("g", "q")] f)
      ∧ predictC dfOne "t" 1 [("f", "x")] = predictC dfOne "t" 1 [("f", "x"), ("g", "q")] :=
  ⟨by decide, C5_extra_feature_ignored dfOne "t" 1 [("f", "x")] [("f", "x"), ("g", "q")] (by decide)⟩

/-- Feature-free table whose first-seen class is "z". -/
def dfZA : DataTable := ⟨["t"], [[("t", "z")], [("t", "a")]]⟩

/-- The same rows in the opposite order: first-seen class is "a". -/
def dfAZ : DataTable := ⟨["t"], [[("t", "a")], [("t", "z")]]⟩

lemma classScores_dfZA :
    classScores dfZA "t" 1 [] =
      .ok [(some "z", priorRead dfZA "t" 1 (some "z")),
           (some "a", priorRead dfZA "t" 1 (some "z"))] := rfl

lemma classScores_dfAZ :
    classScores dfAZ "t" 1 [] =
      .ok [(some "a", priorRead dfAZ "t" 1 (some "a")),
           (some "z", priorRead dfAZ "t" 1 (some "a"))] := rfl

lemma predict_dfZA : predictC dfZA "t" 1 [] = .ok (some "z") := by
  rw [predictC, classScores_dfZA]
  simp only [argmaxFirst, argmaxGo]
  rw [if_neg (lt_irrefl (priorRead dfZA "t" 1 (some "z")))]

lemma predict_dfAZ : predictC dfAZ "t" 1 [] = .ok (some "a") := by
  rw [predictC, classScores_dfAZ]
  simp only [argmaxFirst, argmaxGo]
  rw [if_neg (lt_irrefl (priorRead dfAZ "t" 1 (some "a")))]

/-- C6 counterexample: the two classes tie exactly (both scores are the same
prior term), yet predict returns "z" when "z" was inserted first and "a"
when "a" was inserted first — the tie is broken by dictionary insertion
order, not by a fixed (e.g. lexicographic) order on the labels. -/
theorem C6_counterexample :
    classScores dfZA "t" 1 [] =
        .ok [(some "z", priorRead dfZA "t" 1 (some "z")),
             (some "a", priorRead dfZA "t" 1 (some "z"))]
      ∧ predictC dfZA "t" 1 [] = .ok (some "z")
      ∧ classScores dfAZ "t" 1 [] =
          .ok [(some "a", priorRead dfAZ "t" 1 (some "a")),
               (some "z", priorRead dfAZ "t" 1 (some "a"))]
      ∧ predictC dfAZ "t" 1 [] = .ok (some "a") :=
  ⟨classScores_dfZA, predict_dfZA, classScores_dfAZ, predict_dfAZ⟩

lemma argmaxGo_split :
    ∀ (ps : List (Option String × ℝ)) (b : Option String × ℝ),
      ∃ l1 l2, b :: ps = l1 ++ argmaxGo b ps :: l2
        ∧ (∀ q ∈ b :: ps, q.2 ≤ (argmaxGo b ps).2)
        ∧ (∀ q ∈ l1, q.2 < (argmaxGo b ps).2) := by
  intro ps
  induction ps with
  | nil =>
    intro b
    exact ⟨[], [], by simp [argmaxGo], by simp [argmaxGo], by simp⟩
  | cons p ps ih =>
    intro b
    have hcons : argmaxGo b (p :: ps) = argmaxGo (if p.2 > b.2 then p else b) ps := by
      rw [argmaxGo]
    by_cases h : p.2 > b.2
    · obtain ⟨l1, l2, he, hle, hlt⟩ := ih p
      have hstep : argmaxGo b (p :: ps) = argmaxGo p ps := by rw [hcons, if_pos h]
      rw [hstep]
      refine ⟨b :: l1, l2, ?_, ?_, ?_⟩
      · rw [List.cons_append, ← he]
      · intro q hq
        rcases List.mem_cons.mp hq with rfl | hq'
        · exact le_of_lt (lt_of_lt_of_le h (hle p (List.mem_cons_self p ps)))
        · exact hle q hq'
      · intro q hq
        rcases List.mem_cons.mp hq with rfl | hq'
        · exact lt_of_lt_of_le h (hle p (List.mem_cons_self p ps))
        · exact hlt q hq'
    · obtain ⟨l1, l2, he, hle, hlt⟩ := ih b
      have hstep : argmaxGo b (p :: ps) = argmaxGo b ps := by rw [hcons, if_neg h]
      have hple : p.2 ≤ b.2 := le_of_not_lt h
      have hble : b.2 ≤ (argmaxGo b ps).2 := hle b (List.mem_cons_self b ps)
      rw [hstep]
      cases l1 with
      | nil =>
        simp only [List.nil_append] at he
        injection he with hb hps
        refine ⟨[], p :: l2, ?_, ?_, ?_⟩
        · rw [List.nil_append, ← hb, ← hps]
        · intro q hq
          rcases List.mem_cons.mp hq with rfl | hq'
          · exact hble
          · rcases List.mem_cons.mp hq' with rfl | hq''
            · exact le_trans hple hble
            · exact hle q (List.mem_cons_of_mem b hq'')
        · intro q hq
          exact absurd hq (List.not_mem_nil q)
      | cons x l1' =>
        rw [List.cons_append] at he
        injection he with hb hps
        have hblt : b.2 < (argmaxGo b ps).2 := by
          have := hlt x (List.mem_cons_self x l1')
          rwa [← hb] at this
        refine ⟨b :: p :: l1', l2, ?_, ?_, ?_⟩
        · rw [List.cons_append, List.cons_append, ← hps]
        · intro q hq
          rcases List.mem_cons.mp hq with rfl | hq'
          · exact hble
          · rcases List.mem_cons.mp hq' with rfl | hq''
            · exact le_trans hple hble
            · exact hle q (List.mem_cons_of_mem b hq'')
        · intro q hq
          rcases List.mem_cons.mp hq with rfl | hq'
          · exact hblt
          · rcases List.mem_cons.mp hq' with rfl | hq''
            · exact lt_of_le_of_lt hple hblt
            · exact hlt q (List.mem_cons_of_mem x hq'')

/-- C6 amended: on ties predict returns the first class, in discovered
(dict-insertion, i.e. first occurrence in the training data) order, whose
score attains the maximum: the returned label splits the score list into a
strictly-smaller prefix and a no-larger remainder.  The tie-break therefore
depends on insertion order rather than on a fixed order over label values. -/
theorem C6_tie_first_insertion_order :
    ∀ (df : DataTable) (target : String) (α : ℚ) (inst : Row)
      (ps : List (Option String × ℝ)) (k : Option String),
      classScores df target α inst = .ok ps →
      predictC df target α inst = .ok k →
      ∃ l1 p l2, ps = l1 ++ p :: l2 ∧ p.1 = k
        ∧ (∀ q ∈ ps, q.2 ≤ p.2) ∧ (∀ q ∈ l1, q.2 < p.2) := by
  intro df target α inst ps k hps hk
  rw [predictC, hps] at hk
  cases ps with
  | nil => simp [argmaxFirst] at hk
  | cons p0 ps' =>
    simp only [argmaxFirst] at hk
    have hk' : (argmaxGo p0 ps').1 = k := by
      cases hk
      rfl
    obtain ⟨l1, l2, he, hle, hlt⟩ := argmaxGo_split ps' p0
    exact ⟨l1, argmaxGo p0 ps', l2, he, hk', hle, hlt⟩

/-- C6 witness: applying the amended tie-break fact to the tied z-first
model, where predict returns "z". -/
theorem C6_tie_first_insertion_order_witness :
    classScores dfZA "t" 1 [] =
        .ok [(some "z", priorRead dfZA "t" 1 (some "z")),
             (some "a", priorRead dfZA "t" 1 (some "z"))]
      ∧ predictC dfZA "t" 1 [] = .ok (some "z")
      ∧ ∃ l1 p l2,
          [(some "z", priorRead dfZA "t" 1 (some "z")),
           (some "a", priorRead dfZA "t" 1 (some "z"))] = l1 ++ p :: l2
          ∧ p.1 = some "z"
          ∧ (∀ q ∈ [(some "z", priorRead dfZA "t" 1 (some "z")),
                    (some "a", priorRead dfZA "t" 1 (some "z"))], q.2 ≤ p.2)
          ∧ (∀ q ∈ l1, q.2 < p.2) :=
  ⟨classScores_dfZA, predict_dfZA,
    C6_tie_first_insertion_order dfZA "t" 1 [] _ (some "z") classScores_dfZA predict_dfZA⟩

/-!
Bookkeeping for class_frequencies: the dict has no duplicate keys, and its
stored counts sum to the number of rows.
-/

/-- No-duplicate-keys invariant, phrased through countP. -/
def NDKeys (acc : List (Option String × ℕ)) : Prop :=
  ∀ l, acc.countP (fun p => decide (p.1 = l)) ≤ 1

lemma map_incr_sum (l : Option String) :
    ∀ acc : List (Option String × ℕ),
      ((acc.map (fun p => if p.1 = l then (p.1, p.2 + 1) else p)).map Prod.snd).sum
        = (acc.map Prod.snd).sum + acc.countP (fun p => decide (p.1 = l)) := by
  intro acc
  induction acc with
  | nil => simp
  | cons p acc ih =>
    simp only [List.map_cons, List.sum_cons, List.countP_cons, ih]
    by_cases h : p.1 = l
    · simp [h]
      omega
    · simp [h]
      omega

lemma bump_sum (acc : List (Option String × ℕ)) (l : Option String)
    (hnd : NDKeys acc) :
    ((bump acc l).map Prod.snd).sum = (acc.map Prod.snd).sum + 1 := by
  rw [bump]
  split
  · rename_i hany
    rw [map_incr_sum]
    have hpos : 0 < acc.countP (fun p => decide (p.1 = l)) := by
      rw [List.countP_pos_iff]
      obtain ⟨p, hp, hdec⟩ := List.any_eq_true.mp hany
      exact ⟨p, hp, hdec⟩
    have : acc.countP (fun p => decide (p.1 = l)) = 1 := le_antisymm (hnd l) hpos
    rw [this]
  · simp

lemma bump_ND (acc : List (Option String × ℕ)) (l : Option String)
    (hnd : NDKeys acc) : NDKeys (bump acc l) := by
  rw [bump]
  split
  · rename_i hany
    intro x
    rw [List.countP_map]
    have : ((fun p : Option String × ℕ => decide (p.1 = x)) ∘
        (fun p : Option String × ℕ => if p.1 = l then (p.1, p.2 + 1) else p))
        = fun p : Option String × ℕ => decide (p.1 = x) := by
      funext p
      by_cases h : p.1 = l <;> simp [h]
    rw [this]
    exact hnd x
  · rename_i hany
    intro x
    rw [List.countP_append]
    by_cases h : x = l
    · have hz : acc.countP (fun p => decide (p.1 = x)) = 0 := by
        rw [List.countP_eq_zero]
        intro p hp
        simp only [decide_eq_true_eq]
        intro hpx
        exact hany (List.any_eq_true.mpr ⟨p, hp, by simp [hpx, h]⟩)
      rw [hz]
      have hone : ([((l, 1) : Option String × ℕ)]).countP (fun p => decide (p.1 = x)) = 1 := by
        simp [List.countP_cons, h]
      rw [hone]
    · have hzero : ([((l, 1) : Option String × ℕ)]).countP (fun p => decide (p.1 = x)) = 0 := by
        simp [List.countP_cons]
        exact fun hc => absurd hc.symm h
      rw [hzero]
      simpa using hnd x

lemma foldl_bump_ND (target : String) :
    ∀ (rs : List Row) (acc : List (Option String × ℕ)), NDKeys acc →
      NDKeys (rs.foldl (fun acc r => bump acc (cell r target)) acc) := by
  intro rs
  induction rs with
  | nil => intro acc h; exact h
  | cons r rs ih =>
    intro acc h
    rw [List.foldl_cons]
    exact ih _ (bump_ND acc (cell r target) h)

lemma classFreqs_ND (rows : List Row) (target : String) :
    NDKeys (classFreqs rows target) :=
  foldl_bump_ND target rows [] (fun l => by simp)

lemma classFreqs_sum (rows : List Row) (target : String) :
    ((classFreqs rows target).map Prod.snd).sum = rows.length := by
  suffices h : ∀ (rs : List Row) (acc : List (Option String × ℕ)), NDKeys acc →
      (((rs.foldl (fun acc r => bump acc (cell r target)) acc).map Prod.snd).sum
        = (acc.map Prod.snd).sum + rs.length) by
    have := h rows [] (fun l => by simp)
    simpa [classFreqs] using this
  intro rs
  induction rs with
  | nil => intro acc _; simp
  | cons r rs ih =>
    intro acc hnd
    rw [List.foldl_cons, ih _ (bump_ND acc (cell r target) hnd),
      bump_sum acc (cell r target) hnd]
    simp
    omega

/-!
List-sum helpers over ℚ and casts to ℝ.
-/

lemma list_sum_div {α : Type} (l : List α) (g : α → ℚ) (D : ℚ) :
    (l.map (fun a => g a / D)).sum = (l.map g).sum / D := by
  induction l with
  | nil => simp
  | cons a l ih => simp [ih, add_div]

lemma list_sum_add_const {α : Type} (l : List α) (g : α → ℚ) (c : ℚ) :
    (l.map (fun a => g a + c)).sum = (l.map g).sum + l.length * c := by
  induction l with
  | nil => simp
  | cons a l ih =>
    simp [ih]
    ring

lemma list_sum_natcast {α : Type} (l : List α) (g : α → ℕ) :
    (l.map (fun a => ((g a : ℕ) : ℚ))).sum = (((l.map g).sum : ℕ) : ℚ) := by
  induction l with
  | nil => simp
  | cons a l ih => simp [ih]

lemma list_sum_ratcast {α : Type} (l : List α) (g : α → ℚ) :
    (l.map (fun a => ((g a : ℚ) : ℝ))).sum = (((l.map g).sum : ℚ) : ℝ) := by
  induction l with
  | nil => simp
  | cons a l ih => simp [ih]

lemma countLabel_add (l : List (Label × List String)) :
    countLabelL l .ham + countLabelL l .spam = l.length := by
  induction l with
  | nil => simp [countLabelL]
  | cons p l ih =>
    simp only [countLabelL, List.countP_cons] at ih ⊢
    cases hp : p.1 <;> simp [hp] <;> omega

/-- C7: the smoothed priors form a probability distribution — for the
categorical train (any α > 0, any non-empty data) the stored log-priors
exponentiate and sum to exactly 1, and likewise the two text-classifier
priors always sum to 1 after exponentiation. -/
theorem C7_priors_sum_to_one :
    (∀ (df : DataTable) (target : String) (α : ℚ), 0 < α → df.rows ≠ [] →
      ((logPriors df target α).map (fun q => Real.exp q.2)).sum = 1)
    ∧ ∀ m : TextModel,
        Real.exp (logPriorText m .ham) + Real.exp (logPriorText m .spam) = 1 := by
  constructor
  · intro df target α hα hrows
    have hn : 1 ≤ df.rows.length := by
      cases hr : df.rows with
      | nil => exact absurd hr hrows
      | cons a l => simp [hr]
    have hD : (0 : ℚ) < (df.rows.length : ℚ)
        + α * ((classFreqs df.rows target).length : ℚ) := by
      have h1 : (1 : ℚ) ≤ (df.rows.length : ℚ) := by exact_mod_cast hn
      have h2 : (0 : ℚ) ≤ α * ((classFreqs df.rows target).length : ℚ) :=
        mul_nonneg (le_of_lt hα) (by positivity)
      linarith
    have hθ : ∀ c : ℕ, (0 : ℚ) < priorTheta df target α c := by
      intro c
      rw [priorTheta]
      apply div_pos
      · have : (0 : ℚ) ≤ (c : ℚ) := by positivity
        linarith
      · exact hD
    have hmap : (logPriors df target α).map (fun q => Real.exp q.2)
        = (classFreqs df.rows target).map
            (fun p => ((priorTheta df target α p.2 : ℚ) : ℝ)) := by
      rw [logPriors, List.map_map]
      refine List.map_congr_left ?_
      intro p _
      simp only [Function.comp]
      exact Real.exp_log (by exact_mod_cast hθ p.2)
    rw [hmap, list_sum_ratcast]
    have hq : ((classFreqs df.rows target).map
        (fun p => priorTheta df target α p.2)).sum = 1 := by
      have hform : ((classFreqs df.rows target).map
          (fun p => priorTheta df target α p.2)).sum
          = ((classFreqs df.rows target).map
              (fun p => ((p.2 : ℚ) + α))).sum
            / ((df.rows.length : ℚ) + α * ((classFreqs df.rows target).length : ℚ)) := by
        rw [← list_sum_div]
        refine congrArg List.sum (List.map_congr_left ?_)
        intro p _
        rw [priorTheta]
      rw [hform, list_sum_add_const]
      have hsnd : ((classFreqs df.rows target).map (fun p => ((p.2 : ℕ) : ℚ))).sum
          = ((df.rows.length : ℕ) : ℚ) := by
        rw [list_sum_natcast]
        exact_mod_cast congrArg (fun n : ℕ => ((n : ℕ) : ℚ)) (classFreqs_sum df.rows target)
      rw [hsnd]
      field_simp
      ring
    rw [hq]
    norm_num
  · intro m
    have hden : (0 : ℚ) < (nAll m : ℚ) + 2 := by positivity
    have hham : (0 : ℚ) < pHam m := by
      rw [pHam]
      apply div_pos
      · have : (0 : ℚ) ≤ (nHam m : ℚ) := by positivity
        linarith
      · exact hden
    have hspam : (0 : ℚ) < pSpam m := by
      rw [pSpam]
      apply div_pos
      · have : (0 : ℚ) ≤ (nSpam m : ℚ) := by positivity
        linarith
      · exact hden
    have e1 : Real.exp (logPriorText m .ham) = ((pHam m : ℚ) : ℝ) := by
      rw [logPriorText]
      exact Real.exp_log (by exact_mod_cast hham)
    have e2 : Real.exp (logPriorText m .spam) = ((pSpam m : ℚ) : ℝ) := by
      rw [logPriorText]
      exact Real.exp_log (by exact_mod_cast hspam)
    rw [e1, e2]
    have hq : pHam m + pSpam m = 1 := by
      rw [pHam, pSpam, div_add_div_same]
      have hmm : (nHam m : ℚ) + 1 + ((nSpam m : ℚ) + 1) = (nAll m : ℚ) + 2 := by
        have hsum : nHam m + nSpam m = nAll m := by
          rw [nHam, nSpam, max_add_min, nAll]
          exact countLabel_add m.allData
        push_cast [← hsum]
        ring
      rw [show (nHam m : ℚ) + 1 = (nHam m : ℚ) + 1 from rfl]
      calc ((nHam m : ℚ) + 1 + ((nSpam m : ℚ) + 1)) / ((nAll m : ℚ) + 2)
          = ((nAll m : ℚ) + 2) / ((nAll m : ℚ) + 2) := by rw [hmm]
        _ = 1 := div_self (ne_of_gt hden)
    calc ((pHam m : ℚ) : ℝ) + ((pSpam m : ℚ) : ℝ)
        = (((pHam m + pSpam m : ℚ)) : ℝ) := by push_cast; ring
      _ = 1 := by rw [hq]; norm_num

/-- C7 witness: the categorical priors of the two-row table (α = 1) and the
text-model priors of the toy model both exponentiate and sum to 1. -/
theorem C7_priors_sum_to_one_witness :
    ((0 : ℚ) < 1 ∧ dfAB.rows ≠ []
      ∧ ((logPriors dfAB "t" 1).map (fun q => Real.exp q.2)).sum = 1)
    ∧ Real.exp (logPriorText toyM .ham) + Real.exp (logPriorText toyM .spam) = 1 :=
  ⟨⟨by norm_num, by decide, C7_priors_sum_to_one.1 dfAB "t" 1 (by norm_num) (by decide)⟩,
   C7_priors_sum_to_one.2 toyM⟩

lemma mem_classTokens_sub (train : List (Label × List String)) (k : Label) :
    ∀ x ∈ classTokensL train k, x ∈ (train.map Prod.snd).flatten := by
  intro x hx
  rw [classTokensL, List.mem_flatten] at hx
  obtain ⟨l, hl, hxl⟩ := hx
  rw [List.mem_map] at hl
  obtain ⟨p, hp, hpl⟩ := hl
  rw [List.mem_flatten]
  exact ⟨l, List.mem_map.mpr ⟨p, List.mem_of_mem_filter hp, hpl⟩, hxl⟩

lemma sum_count_eq (l : List String) (s : Finset String) (h : ∀ x ∈ l, x ∈ s) :
    ∑ w ∈ s, l.count w = l.length := by
  have base : ∑ a ∈ l.toFinset, l.count a = l.length := by
    simp
  rw [← base]
  symm
  refine Finset.sum_subset ?_ ?_
  · intro x hx
    exact h x (List.mem_toFinset.mp hx)
  · intro x _ hx
    exact List.count_eq_zero.mpr (fun hmem => hx (List.mem_toFinset.mpr hmem))

/-- C8: the smoothed conditionals form a probability distribution over the
relevant domain — the vocabulary for the multinomial model, and each
feature's set of distinct values for the categorical model: exponentials of
the stored log-conditionals sum to exactly 1. -/
theorem C8_conditionals_sum_to_one :
    (∀ (m : TextModel) (k : Label), vocab m ≠ ∅ →
      ∑ w ∈ vocab m, Real.exp (wordLogProb m k w) = 1)
    ∧ ∀ (df : DataTable) (target : String) (α : ℚ) (k : Option String) (f : String),
        0 < α → df.rows ≠ [] →
        ((uniqueVals df f).map
          (fun v => Real.exp (Real.log ((condTheta df target α k f v : ℝ))))).sum = 1 := by
  constructor
  · intro m k hne
    have hV : 1 ≤ vocabCard m := by
      rw [vocabCard]
      exact Finset.card_pos.mpr (Finset.nonempty_iff_ne_empty.mpr hne)
    have hD : (0 : ℚ) < (wordsIn m k : ℚ) + 1 * (vocabCard m : ℚ) := by
      have h1 : (1 : ℚ) ≤ (vocabCard m : ℚ) := by exact_mod_cast hV
      have h2 : (0 : ℚ) ≤ (wordsIn m k : ℚ) := by positivity
      linarith
    have hθ : ∀ w, (0 : ℚ) < wordProb m k w := by
      intro w
      rw [wordProb]
      apply div_pos
      · have : (0 : ℚ) ≤ (wordFreq m k w : ℚ) := by positivity
        linarith
      · exact hD
    have hexp : ∑ w ∈ vocab m, Real.exp (wordLogProb m k w)
        = ∑ w ∈ vocab m, ((wordProb m k w : ℚ) : ℝ) := by
      refine Finset.sum_congr rfl ?_
      intro w _
      rw [wordLogProb]
      exact Real.exp_log (by exact_mod_cast hθ w)
    rw [hexp]
    have hcast : ∑ w ∈ vocab m, ((wordProb m k w : ℚ) : ℝ)
        = ((∑ w ∈ vocab m, wordProb m k w : ℚ) : ℝ) := by
      push_cast
      rfl
    rw [hcast]
    have hsum : ∑ w ∈ vocab m, wordProb m k w = 1 := by
      have hform : ∑ w ∈ vocab m, wordProb m k w
          = (∑ w ∈ vocab m, ((wordFreq m k w : ℚ) + 1))
            / ((wordsIn m k : ℚ) + 1 * (vocabCard m : ℚ)) := by
        rw [Finset.sum_div]
        exact Finset.sum_congr rfl (fun w _ => by rw [wordProb])
      rw [hform, Finset.sum_add_distrib, Finset.sum_const, nsmul_eq_mul, mul_one]
      have hfreq : ∑ w ∈ vocab m, ((wordFreq m k w : ℕ) : ℚ)
          = ((wordsIn m k : ℕ) : ℚ) := by
        rw [← Nat.cast_sum]
        have : ∑ w ∈ vocab m, wordFreq m k w = wordsIn m k := by
          rw [wordsIn]
          exact sum_count_eq (classTokensL (trainData m) k) (vocab m)
            (fun x hx => List.mem_toFinset.mpr (mem_classTokens_sub (trainData m) k x hx))
        exact_mod_cast this
      rw [hfreq, vocabCard, one_mul]
      have hD2 : ((wordsIn m k : ℚ) + (((vocab m).card : ℕ) : ℚ)) ≠ 0 := by
        have hD3 := hD
        rw [vocabCard, one_mul] at hD3
        exact ne_of_gt hD3
      exact div_self hD2
    rw [hsum]
    norm_num
  · intro df target α k f hα hrows
    have hV : 1 ≤ (uniqueVals df f).length := by
      have hcol : colVals df f ≠ [] := by
        rw [colVals]
        cases hr : df.rows with
        | nil => exact absurd hr hrows
        | cons a l => simp [hr]
      have : uniqueVals df f ≠ [] := by
        rw [uniqueVals]
        intro hdn
        exact hcol ((List.dedup_eq_nil (colVals df f)).mp hdn)
      cases hu : uniqueVals df f with
      | nil => exact absurd hu this
      | cons a l => simp [hu]
    have hD : (0 : ℚ) < (totalCount df target k f : ℚ)
        + α * ((uniqueVals df f).length : ℚ) := by
      have h1 : (1 : ℚ) ≤ ((uniqueVals df f).length : ℚ) := by exact_mod_cast hV
      have h2 : (0 : ℚ) ≤ (totalCount df target k f : ℚ) := by positivity
      nlinarith
    have hθ : ∀ v, (0 : ℚ) < condTheta df target α k f v := by
      intro v
      rw [condTheta]
      apply div_pos
      · have : (0 : ℚ) ≤ (countKV df target k f v : ℚ) := by positivity
        linarith
      · exact hD
    have hexp : (uniqueVals df f).map
        (fun v => Real.exp (Real.log ((condTheta df target α k f v : ℝ))))
        = (uniqueVals df f).map (fun v => ((condTheta df target α k f v : ℚ) : ℝ)) := by
      refine List.map_congr_left ?_
      intro v _
      exact Real.exp_log (by exact_mod_cast hθ v)
    rw [hexp, list_sum_ratcast]
    have hsum : ((uniqueVals df f).map (fun v => condTheta df target α k f v)).sum = 1 := by
      have hform : ((uniqueVals df f).map (fun v => condTheta df target α k f v)).sum
          = ((uniqueVals df f).map (fun v => ((countKV df target k f v : ℚ) + α))).sum
            / ((totalCount df target k f : ℚ) + α * ((uniqueVals df f).length : ℚ)) := by
        rw [← list_sum_div]
        refine congrArg List.sum (List.map_congr_left ?_)
        intro v _
        rw [condTheta]
      rw [hform, list_sum_add_const]
      have hkv : ((uniqueVals df f).map (fun v => ((countKV df target k f v : ℕ) : ℚ))).sum
          = ((totalCount df target k f : ℕ) : ℚ) := by
        rw [list_sum_natcast, totalCount]
      rw [hkv]
      field_simp
      ring
    rw [hsum]
    norm_num

/-- C8 witness: the spam conditionals of the toy text model and the class-a
conditionals of feature f in the two-row table each sum to 1. -/
theorem C8_conditionals_sum_to_one_witness :
    (vocab toyM ≠ ∅
      ∧ ∑ w ∈ vocab toyM, Real.exp (wordLogProb toyM .spam w) = 1)
    ∧ ((0 : ℚ) < 1 ∧ dfAB.rows ≠ []
      ∧ ((uniqueVals dfAB "f").map
          (fun v => Real.exp (Real.log ((condTheta dfAB "t" 1 (some "a") "f" v : ℝ))))).sum = 1) :=
  ⟨⟨by decide, C8_conditionals_sum_to_one.1 toyM .spam (by decide)⟩,
   ⟨by norm_num, by decide,
    C8_conditionals_sum_to_one.2 dfAB "t" 1 (some "a") "f" (by norm_num) (by decide)⟩⟩

lemma getCount_cons (p : Option String × ℕ) (acc : List (Option String × ℕ))
    (x : Option String) :
    getCount (p :: acc) x = (if p.1 = x then p.2 else 0) + getCount acc x := by
  by_cases h : p.1 = x <;> simp [getCount, List.filter_cons, h]

lemma getCount_append (acc1 acc2 : List (Option String × ℕ)) (x : Option String) :
    getCount (acc1 ++ acc2) x = getCount acc1 x + getCount acc2 x := by
  simp [getCount, List.filter_append]

lemma getCount_map_incr (l x : Option String) :
    ∀ acc : List (Option String × ℕ),
      getCount (acc.map (fun p => if p.1 = l then (p.1, p.2 + 1) else p)) x
        = getCount acc x
          + (if x = l then acc.countP (fun p => decide (p.1 = l)) else 0) := by
  intro acc
  induction acc with
  | nil => simp [getCount]
  | cons p acc ih =>
    rw [List.map_cons, getCount_cons, getCount_cons, ih, List.countP_cons]
    split_ifs with h1 h2 h3 <;> first
      | omega
      | simp_all

lemma getCount_bump (acc : List (Option String × ℕ)) (l x : Option String)
    (hnd : NDKeys acc) :
    getCount (bump acc l) x = getCount acc x + (if x = l then 1 else 0) := by
  rw [bump]
  split
  · rename_i hany
    rw [getCount_map_incr]
    by_cases hxl : x = l
    · have hpos : 0 < acc.countP (fun p => decide (p.1 = l)) := by
        rw [List.countP_pos_iff]
        obtain ⟨p, hp, hdec⟩ := List.any_eq_true.mp hany
        exact ⟨p, hp, hdec⟩
      have hone : acc.countP (fun p => decide (p.1 = l)) = 1 :=
        le_antisymm (hnd l) hpos
      simp [hxl, hone]
    · simp [hxl]
  · rw [getCount_append]
    have hsingle : getCount [(l, 1)] x = if x = l then 1 else 0 := by
      by_cases hxl : x = l <;> simp [getCount, List.filter_cons, hxl, eq_comm]
    rw [hsingle]

lemma getCount_foldl (target : String) (x : Option String) :
    ∀ (rs : List Row) (acc : List (Option String × ℕ)), NDKeys acc →
      getCount (rs.foldl (fun acc r => bump acc (cell r target)) acc) x
        = getCount acc x + rs.countP (fun r => decide (cell r target = x)) := by
  intro rs
  induction rs with
  | nil => intro acc _; simp
  | cons r rs ih =>
    intro acc hnd
    rw [List.foldl_cons, ih _ (bump_ND acc (cell r target) hnd),
      getCount_bump acc (cell r target) x hnd, List.countP_cons]
    simp only [decide_eq_true_eq]
    have hif : (if x = cell r target then (1 : ℕ) else 0)
        = (if cell r target = x then 1 else 0) := by
      by_cases hx : cell r target = x
      · rw [if_pos hx.symm, if_pos hx]
      · have hx2 : ¬ (x = cell r target) := fun hc => hx hc.symm
        rw [if_neg hx2, if_neg hx]
    rw [hif]
    omega

lemma classFreqs_getCount (rows : List Row) (target : String) (x : Option String) :
    getCount (classFreqs rows target) x
      = rows.countP (fun r => decide (cell r target = x)) := by
  have h := getCount_foldl target x rows [] (fun l => by simp)
  simpa [classFreqs, getCount] using h

/-- C9: the frequency-counting phase is invariant under permutation of the
training sequence — class-instance counts, per-(class,event) counts,
per-class event totals and the discovered vocabulary / per-feature domains
coincide for any reordering, in both implementations. -/
theorem C9_counting_permutation_invariant :
    (∀ (t1 t2 : List (Label × List String)), t1 ≠ [] → t1.Perm t2 →
      (∀ k, countLabelL t1 k = countLabelL t2 k)
        ∧ (∀ k w, wordFreqL t1 k w = wordFreqL t2 k w)
        ∧ (∀ k, wordsInL t1 k = wordsInL t2 k)
        ∧ vocabL t1 = vocabL t2)
    ∧ ∀ (cols : List String) (rows1 rows2 : List Row) (target : String),
        rows1 ≠ [] → rows1.Perm rows2 →
        (∀ x, getCount (classFreqs rows1 target) x
            = getCount (classFreqs rows2 target) x)
          ∧ (∀ k f v, countKV ⟨cols, rows1⟩ target k f v
              = countKV ⟨cols, rows2⟩ target k f v)
          ∧ (∀ k f, totalCount ⟨cols, rows1⟩ target k f
              = totalCount ⟨cols, rows2⟩ target k f)
          ∧ ∀ f, (uniqueVals ⟨cols, rows1⟩ f).toFinset
              = (uniqueVals ⟨cols, rows2⟩ f).toFinset := by
  constructor
  · intro t1 t2 _hne hp
    have hct : ∀ k, (classTokensL t1 k).Perm (classTokensL t2 k) := by
      intro k
      rw [classTokensL, classTokensL]
      exact ((hp.filter _).map Prod.snd).flatten
    refine ⟨?_, ?_, ?_, ?_⟩
    · intro k
      rw [countLabelL, countLabelL]
      exact hp.countP_eq _
    · intro k w
      rw [wordFreqL, wordFreqL]
      exact (hct k).count_eq w
    · intro k
      rw [wordsInL, wordsInL]
      exact (hct k).length_eq
    · have hall : ((t1.map Prod.snd).flatten).Perm ((t2.map Prod.snd).flatten) :=
        (hp.map Prod.snd).flatten
      rw [vocabL, vocabL]
      ext x
      simp only [List.mem_toFinset]
      exact hall.mem_iff
  · intro cols rows1 rows2 target _hne hp
    have hcv : ∀ f, (colVals ⟨cols, rows1⟩ f).Perm (colVals ⟨cols, rows2⟩ f) := by
      intro f
      rw [colVals, colVals]
      exact hp.map _
    have hu : ∀ f, (uniqueVals ⟨cols, rows1⟩ f).Perm (uniqueVals ⟨cols, rows2⟩ f) := by
      intro f
      rw [uniqueVals, uniqueVals]
      exact (hcv f).dedup
    have hkv : ∀ k f v, countKV ⟨cols, rows1⟩ target k f v
        = countKV ⟨cols, rows2⟩ target k f v := by
      intro k f v
      rw [countKV, countKV]
      exact hp.countP_eq _
    refine ⟨?_, hkv, ?_, ?_⟩
    · intro x
      rw [classFreqs_getCount, classFreqs_getCount]
      exact hp.countP_eq _
    · intro k f
      rw [totalCount, totalCount]
      have hcong : (uniqueVals ⟨cols, rows1⟩ f).map
          (fun v => countKV ⟨cols, rows1⟩ target k f v)
          = (uniqueVals ⟨cols, rows1⟩ f).map
              (fun v => countKV ⟨cols, rows2⟩ target k f v) :=
        List.map_congr_left (fun v _ => hkv k f v)
      rw [hcong]
      exact ((hu f).map _).sum_eq
    · intro f
      ext x
      simp only [List.mem_toFinset]
      exact (hu f).mem_iff

/-- C9 witness: a concrete three-element permutation for the text counter
and a two-row swap for the categorical counter. -/
theorem C9_counting_permutation_invariant_witness :
    (toyM.allData ≠ [] ∧ toyM.allData.Perm
        [(.ham, ["hello", "friend"]), (.spam, ["win", "prize"]), (.spam, ["win", "money"])]
      ∧ wordFreqL toyM.allData .spam "win"
          = wordFreqL [(.ham, ["hello", "friend"]), (.spam, ["win", "prize"]),
              (.spam, ["win", "money"])] .spam "win"
      ∧ vocabL toyM.allData
          = vocabL [(.ham, ["hello", "friend"]), (.spam, ["win", "prize"]),
              (.spam, ["win", "money"])])
    ∧ (dfZA.rows ≠ [] ∧ dfZA.rows.Perm dfAZ.rows
      ∧ getCount (classFreqs dfZA.rows "t") (some "z")
          = getCount (classFreqs dfAZ.rows "t") (some "z")) := by
  have hperm : toyM.allData.Perm
      [(.ham, ["hello", "friend"]), (.spam, ["win", "prize"]), (.spam, ["win", "money"])] := by
    decide
  have hperm2 : dfZA.rows.Perm dfAZ.rows := by decide
  have h1 := (C9_counting_permutation_invariant.1 toyM.allData
    [(.ham, ["hello", "friend"]), (.spam, ["win", "prize"]), (.spam, ["win", "money"])]
    (by decide) hperm)
  have h2 := (C9_counting_permutation_invariant.2 dfZA.cols dfZA.rows dfAZ.rows "t"
    (by decide) hperm2)
  exact ⟨⟨by decide, hperm, h1.2.1 .spam "win", h1.2.2.2⟩, ⟨by decide, hperm2, h2.1 (some "z")⟩⟩
